import Mathlib

/-!
Verification development for the browser-extension content-extraction and
normalization pipeline.  Strings are modelled as `List Char`; JavaScript's
`null` is modelled by `Option`.  Every definition below is a shallow
embedding of a function of the source repository (file and function named
in its doc comment).
-/

set_option maxHeartbeats 1000000

namespace Grad

/-- The character class of the first regex of `cleanDescription`
(`popup.js`): U+00A0, U+200B to U+200D, U+FEFF. -/
def isZw (c : Char) : Bool :=
  c.toNat = 0xA0 || (0x200B ≤ c.toNat && c.toNat ≤ 0x200D) || c.toNat = 0xFEFF

/-- JavaScript's whitespace class (the regex class of a backslash-s,
which is also the set removed by `String.prototype.trim`). -/
def isWs (c : Char) : Bool :=
  c = ' ' || c = '\t' || c = '\n' || c.toNat = 0xB || c.toNat = 0xC || c = '\r' ||
  c.toNat = 0xA0 || c.toNat = 0x1680 || (0x2000 ≤ c.toNat && c.toNat ≤ 0x200A) ||
  c.toNat = 0x2028 || c.toNat = 0x2029 || c.toNat = 0x202F || c.toNat = 0x205F ||
  c.toNat = 0x3000 || c.toNat = 0xFEFF

/-- First step of `cleanDescription`: replace each character of the
special-unicode class with a plain space. -/
def step1 (l : List Char) : List Char :=
  l.map (fun c => if isZw c then ' ' else c)

/-- Worker for the whitespace-run collapse `replace` of
`cleanDescription`: the flag records whether the previous character was
part of a whitespace run already replaced. -/
def collapseAux : Bool → List Char → List Char
  | _, [] => []
  | prevWs, c :: cs =>
    if isWs c then
      if prevWs then collapseAux true cs
      else ' ' :: collapseAux true cs
    else c :: collapseAux false cs

/-- Second step of `cleanDescription`: every maximal run of whitespace
becomes a single space. -/
def collapseWs (l : List Char) : List Char := collapseAux false l

/-- `String.prototype.trim` on the front: drop leading whitespace. -/
def trimStart (l : List Char) : List Char := l.dropWhile isWs

/-- `String.prototype.trim` on the back: drop the maximal whitespace
suffix. -/
def trimEnd : List Char → List Char
  | [] => []
  | c :: cs =>
    match trimEnd cs with
    | [] => if isWs c then [] else [c]
    | r => c :: r

/-- `String.prototype.trim`. -/
def trim (l : List Char) : List Char := trimEnd (trimStart l)

/-- The newline-normalizing `replace` of `cleanDescription` (leftmost
alternative first, so a carriage return followed by a line feed becomes a
single line feed). -/
def normNl : List Char → List Char
  | [] => []
  | [c] => if c = '\r' || c = '\n' then ['\n'] else [c]
  | c1 :: c2 :: cs =>
    if c1 = '\r' then
      if c2 = '\n' then '\n' :: normNl cs
      else '\n' :: normNl (c2 :: cs)
    else if c1 = '\n' then '\n' :: normNl (c2 :: cs)
    else c1 :: normNl (c2 :: cs)

/-- `description.split` at the line feed character, with JavaScript
semantics: the empty string splits to one empty piece, and a trailing
separator yields a trailing empty piece. -/
def splitNl : List Char → List (List Char)
  | [] => [[]]
  | c :: cs =>
    if c = '\n' then [] :: splitNl cs
    else
      match splitNl cs with
      | [] => [[c]]
      | l :: ls => (c :: l) :: ls

/-- The part of the URL regex of `cleanDescription` after the literal
`"http"`: greedy optional `'s'` (with backtracking) then the literal
`"://"`.  Returns the remaining characters on success. -/
def isHttpAfter : List Char → Option (List Char)
  | 's' :: ':' :: '/' :: '/' :: rest => some rest
  | ':' :: '/' :: '/' :: rest => some rest
  | _ => none

/-- One match attempt of the URL regex of `cleanDescription` anchored at
the head of the list: the literal `"http"`, `isHttpAfter`, then a greedy
run of at least one non-whitespace character.  On success returns the
characters after the match. -/
def matchUrl : List Char → Option (List Char)
  | 'h' :: 't' :: 't' :: 'p' :: rest =>
    match isHttpAfter rest with
    | some rest2 =>
      if (rest2.takeWhile (fun c => !isWs c)).isEmpty then none
      else some (rest2.dropWhile (fun c => !isWs c))
    | none => none
  | _ => none

/-- Fuelled scan of the global URL-removing `replace` of
`cleanDescription`: left to right, at each position either remove a match
and continue after it, or keep the character.  The fuel only bounds the
recursion depth; `stripUrls` below supplies the list length, which always
suffices because a match consumes at least one character. -/
def stripUrlsF : Nat → List Char → List Char
  | 0, l => l
  | _ + 1, [] => []
  | f + 1, c :: cs =>
    match matchUrl (c :: cs) with
    | some rest => stripUrlsF f rest
    | none => c :: stripUrlsF f cs

/-- The global URL-removing `replace` of `cleanDescription`. -/
def stripUrls (l : List Char) : List Char := stripUrlsF l.length l

/-- The per-line map of `cleanDescription`: remove every URL substring of
the line, then trim the line. -/
def cleanLine (l : List Char) : List Char := trim (stripUrls l)

/-- Worker for the newline-run collapse `replace` of `cleanDescription`. -/
def collapseNlAux : Bool → List Char → List Char
  | _, [] => []
  | prevNl, c :: cs =>
    if c = '\n' then
      if prevNl then collapseNlAux true cs
      else '\n' :: collapseNlAux true cs
    else c :: collapseNlAux false cs

/-- The newline-run collapse `replace` of `cleanDescription`: every
maximal run of line feeds becomes a single line feed. -/
def collapseNl (l : List Char) : List Char := collapseNlAux false l

/-- The line-oriented stage of `cleanDescription`: normalize newlines,
split at line feeds, strip URLs and trim each line, drop empty lines,
rejoin with a line feed. -/
def lineStage (m : List Char) : List Char :=
  List.intercalate ['\n']
    (((splitNl (normNl m)).map cleanLine).filter (fun l => 0 < l.length))

/-- The whole string pipeline of `cleanDescription` (`popup.js`), in the
source's exact order: unicode replacement, whitespace collapse, trim,
newline normalization, the line stage, newline-run collapse, trim. -/
def cleanCore (l : List Char) : List Char :=
  trim (collapseNl (lineStage (trim (collapseWs (step1 l)))))

/-- `cleanDescription` (`popup.js`): `null` maps to `null`, and an empty
cleaned result is collapsed to `null` by the final length test. -/
def cleanDescription : Option (List Char) → Option (List Char)
  | none => none
  | some d => if 0 < (cleanCore d).length then some (cleanCore d) else none

/-!  The content-script side. -/

/-- Abstract DOM node for the recursive flattener of the content script
(`src/unnamed/part_001`): a text node with its text content, an anchor
element with its resolved `href` and child nodes, or any other element
with its child nodes. -/
inductive Node where
  | text : List Char → Node
  | anchor : List Char → List Node → Node
  | element : List Node → Node

mutual

/-- `extractText` of `src/unnamed/part_001`: loop over the child nodes of
the given element, accumulating each child's contribution. -/
def extractText : Node → List Char
  | .text _ => []
  | .anchor _ cs => extractChildren cs
  | .element cs => extractChildren cs

/-- The loop body of `extractText`, over a list of child nodes. -/
def extractChildren : List Node → List Char
  | [] => []
  | n :: ns => nodeContrib n ++ extractChildren ns

/-- One iteration of the `extractText` loop: a text node contributes its
text content; an anchor contributes its `href` plus one space and then
recurses; any other element only recurses. -/
def nodeContrib : Node → List Char
  | .text t => t
  | .anchor href cs => (href ++ [' ']) ++ extractChildren cs
  | .element cs => extractChildren cs

end

/-- The sentinel returned by `getYouTubeTitle` when the heading element
is absent. -/
def noTitle : List Char := "無法獲取標題".toList

/-- `getYouTubeTitle` (`src/unnamed/part_000` and `part_001`): the
argument models the result of the heading query — `some` carries the
element's text content, `none` means the element is absent. -/
def getYouTubeTitle : Option (List Char) → List Char
  | some tc => trim tc
  | none => noTitle

/-- The sentinel string resolved by the five-attempt extraction routine
(`src/unnamed/part_001`) when it gives up. -/
def sentinel : List Char := "無法獲取描述".toList

/-- One DOM snapshot seen by a poll round of the three-attempt routine
(`src/unnamed/part_000`): whether the show-more control is present, and
the text content of the description container when it is present. -/
structure Round3 where
  showMore : Bool
  container : Option (List Char)

/-- One DOM snapshot seen by a poll round of the five-attempt routine
(`src/unnamed/part_001`): whether the show-more control is present, and
the description container's node when it is present. -/
structure Round5 where
  showMore : Bool
  container : Option Node

/-- Observable event of one extraction call: a click of the show-more
control at a given round, a poll (one `extractDescription` read) at a
given round, or the resolution of the promise with its value (`none`
models resolving with `null`). -/
inductive Ev where
  | click : Nat → Ev
  | poll : Nat → Ev
  | res : Option (List Char) → Ev
deriving DecidableEq

/-- `getYouTubeDescription` of `src/unnamed/part_000` (`maxAttempts = 3`),
as the event trace of one call.  `a` is the value of `attempts` before
the next `tryGetDescription` runs; `env r` is the DOM as seen by round
`r`.  Each round clicks the show-more control when present, then polls:
a present container resolves immediately (its trimmed text, or `null`
when that is empty); an absent container retries while `attempts <
maxAttempts` and otherwise resolves `null`.  The fuel only bounds the
recursion depth; `runV3` supplies 4, which the guard `r < 3` makes
sufficient. -/
def runV3F : Nat → (Nat → Round3) → Nat → List Ev
  | 0, _, _ => []
  | f + 1, env, a =>
    (if (env (a + 1)).showMore then [Ev.click (a + 1)] else []) ++
    Ev.poll (a + 1) ::
    (match (env (a + 1)).container with
     | some txt =>
       if 0 < (trim txt).length then [Ev.res (some (trim txt))]
       else [Ev.res none]
     | none =>
       if a + 1 < 3 then runV3F f env (a + 1) else [Ev.res none])

/-- One full call of the three-attempt `getYouTubeDescription`. -/
def runV3 (env : Nat → Round3) : List Ev := runV3F 4 env 0

/-- `getYouTubeDescription` of `src/unnamed/part_001` (`maxAttempts = 5`),
as the event trace of one call.  Like `runV3F`, but the container's text
is computed by the recursive flattener `extractText`, an empty flattened
text retries while `attempts < maxAttempts`, and exhaustion resolves the
sentinel string instead of `null`. -/
def runV5F : Nat → (Nat → Round5) → Nat → List Ev
  | 0, _, _ => []
  | f + 1, env, a =>
    (if (env (a + 1)).showMore then [Ev.click (a + 1)] else []) ++
    Ev.poll (a + 1) ::
    (match (env (a + 1)).container with
     | some node =>
       if 0 < (trim (extractText node)).length then
         [Ev.res (some (trim (extractText node)))]
       else if a + 1 < 5 then runV5F f env (a + 1)
       else [Ev.res (some sentinel)]
     | none =>
       if a + 1 < 5 then runV5F f env (a + 1) else [Ev.res (some sentinel)])

/-- One full call of the five-attempt `getYouTubeDescription`. -/
def runV5 (env : Nat → Round5) : List Ev := runV5F 6 env 0

/-- Projection of a trace event to a poll round. -/
def pollOf : Ev → Option Nat
  | .poll r => some r
  | _ => none

/-- Projection of a trace event to a click round. -/
def clickOf : Ev → Option Nat
  | .click r => some r
  | _ => none

/-- Projection of a trace event to a resolution value. -/
def resOf : Ev → Option (Option (List Char))
  | .res v => some v
  | _ => none

/-- The poll rounds of a trace, in order. -/
def polls (tr : List Ev) : List Nat := tr.filterMap pollOf

/-- The click rounds of a trace, in order. -/
def clicks (tr : List Ev) : List Nat := tr.filterMap clickOf

/-- The resolution values of a trace, in order. -/
def resolutions (tr : List Ev) : List (Option (List Char)) :=
  tr.filterMap resOf

/-- Decidable check that no two adjacent characters are both whitespace. -/
def noAdjWs : List Char → Bool
  | [] => true
  | [_] => true
  | a :: b :: t => (!(isWs a && isWs b)) && noAdjWs (b :: t)

/-!  Helper lemmas about the text pipeline. -/

theorem mem_dropWhile {p : Char → Bool} {l : List Char} {c : Char}
    (h : c ∈ l.dropWhile p) : c ∈ l :=
  (List.dropWhile_sublist p).subset h

theorem head?_dropWhile {p : Char → Bool} {l : List Char} {c : Char}
    (h : (l.dropWhile p).head? = some c) : p c = false := by
  induction l with
  | nil => simp at h
  | cons a t ih =>
    by_cases hp : p a
    · simp [List.dropWhile_cons, hp] at h
      exact ih h
    · simp [List.dropWhile_cons, hp] at h
      subst h
      simpa using hp

theorem dropWhile_eq_self_of_head {p : Char → Bool} {l : List Char}
    (h : ∀ c, l.head? = some c → p c = false) : l.dropWhile p = l := by
  cases l with
  | nil => rfl
  | cons a t => simp [List.dropWhile_cons, h a rfl]

theorem mem_trimEnd {l : List Char} {c : Char} (h : c ∈ trimEnd l) : c ∈ l := by
  induction l with
  | nil => simp [trimEnd] at h
  | cons a t ih =>
    rw [trimEnd] at h
    rcases hr : trimEnd t with _ | ⟨x, xs⟩
    · rw [hr] at h
      by_cases hw : isWs a
      · simp [hw] at h
      · simp [hw] at h; simp [h]
    · rw [hr] at h
      rcases List.mem_cons.mp h with h1 | h2
      · simp [h1]
      · exact List.mem_cons_of_mem a (ih (by rw [hr]; exact h2))

theorem trimEnd_head? {l : List Char} {c : Char}
    (h : (trimEnd l).head? = some c) : l.head? = some c := by
  induction l with
  | nil => simp [trimEnd] at h
  | cons a t _ =>
    rw [trimEnd] at h
    rcases hr : trimEnd t with _ | ⟨x, xs⟩
    · rw [hr] at h
      by_cases hw : isWs a
      · simp [hw] at h
      · simp [hw] at h; simp [h]
    · rw [hr] at h
      simp at h
      simp [h]

theorem trimEnd_last_not_ws {l : List Char} {c : Char}
    (h : (trimEnd l).getLast? = some c) : isWs c = false := by
  induction l with
  | nil => simp [trimEnd] at h
  | cons a t ih =>
    rw [trimEnd] at h
    rcases hr : trimEnd t with _ | ⟨x, xs⟩
    · rw [hr] at h
      by_cases hw : isWs a
      · simp [hw] at h
      · simp [hw] at h; subst h; simpa using hw
    · rw [hr] at h
      rw [List.getLast?_cons_cons] at h
      exact ih (hr ▸ h)

theorem trimEnd_eq_self {l : List Char}
    (h : ∀ c, l.getLast? = some c → isWs c = false) : trimEnd l = l := by
  induction l with
  | nil => rfl
  | cons a t ih =>
    rw [trimEnd]
    rcases ht : t with _ | ⟨x, xs⟩
    · subst ht
      have := h a (by simp)
      simp [trimEnd, this]
    · rw [← ht]
      have hrec : trimEnd t = t := by
        apply ih
        intro c hc
        apply h
        rw [ht] at hc ⊢
        rw [List.getLast?_cons_cons]
        exact hc
      rw [hrec, ht]

theorem mem_trim {l : List Char} {c : Char} (h : c ∈ trim l) : c ∈ l :=
  mem_dropWhile (mem_trimEnd h)

theorem trim_head_not_ws {l : List Char} {c : Char}
    (h : (trim l).head? = some c) : isWs c = false :=
  head?_dropWhile (trimEnd_head? h)

theorem trim_last_not_ws {l : List Char} {c : Char}
    (h : (trim l).getLast? = some c) : isWs c = false :=
  trimEnd_last_not_ws h

theorem trim_eq_self {l : List Char}
    (hh : ∀ c, l.head? = some c → isWs c = false)
    (hl : ∀ c, l.getLast? = some c → isWs c = false) : trim l = l := by
  unfold trim trimStart
  rw [dropWhile_eq_self_of_head hh]
  exact trimEnd_eq_self hl

theorem step1_no_zw {l : List Char} {c : Char} (h : c ∈ step1 l) :
    isZw c = false := by
  unfold step1 at h
  rcases List.mem_map.mp h with ⟨a, _, ha⟩
  by_cases hz : isZw a
  · simp [hz] at ha; subst ha; decide
  · simp [hz] at ha; subst ha; simpa using hz

theorem step1_eq_self {l : List Char} (h : ∀ c ∈ l, isZw c = false) :
    step1 l = l := by
  unfold step1
  conv_rhs => rw [← List.map_id l]
  apply List.map_congr_left
  intro a ha
  simp [h a ha]

theorem step1_allWs {l : List Char}
    (h : ∀ c ∈ l, isWs c = true ∨ isZw c = true) :
    ∀ c ∈ step1 l, isWs c = true := by
  intro c hc
  unfold step1 at hc
  rcases List.mem_map.mp hc with ⟨a, ha, hmap⟩
  by_cases hz : isZw a
  · simp [hz] at hmap; subst hmap; decide
  · simp [hz] at hmap
    subst hmap
    rcases h a ha with h1 | h1
    · exact h1
    · simp [hz] at h1

theorem collapseAux_ws_eq_space {b : Bool} {l : List Char} {c : Char}
    (h : c ∈ collapseAux b l) (hw : isWs c = true) : c = ' ' := by
  induction l generalizing b with
  | nil => simp [collapseAux] at h
  | cons a t ih =>
    by_cases ha : isWs a
    · cases b
      · simp [collapseAux, ha] at h
        rcases h with h1 | h2
        · exact h1
        · exact ih h2
      · simp [collapseAux, ha] at h
        exact ih h
    · simp [collapseAux, ha] at h
      rcases h with h1 | h2
      · subst h1; simp [hw] at ha
      · exact ih h2

theorem mem_collapseAux {b : Bool} {l : List Char} {c : Char}
    (h : c ∈ collapseAux b l) : c ∈ l ∨ c = ' ' := by
  induction l generalizing b with
  | nil => simp [collapseAux] at h
  | cons a t ih =>
    by_cases ha : isWs a
    · cases b
      · simp [collapseAux, ha] at h
        rcases h with h1 | h2
        · right; exact h1
        · rcases ih h2 with h3 | h3
          · left; exact List.mem_cons_of_mem a h3
          · right; exact h3
      · simp [collapseAux, ha] at h
        rcases ih h with h3 | h3
        · left; exact List.mem_cons_of_mem a h3
        · right; exact h3
    · simp [collapseAux, ha] at h
      rcases h with h1 | h2
      · left; simp [h1]
      · rcases ih h2 with h3 | h3
        · left; exact List.mem_cons_of_mem a h3
        · right; exact h3

theorem collapseAux_true_allWs {l : List Char}
    (h : ∀ c ∈ l, isWs c = true) : collapseAux true l = [] := by
  induction l with
  | nil => rfl
  | cons a t ih =>
    rw [collapseAux]
    simp [h a (by simp)]
    exact ih (fun c hc => h c (List.mem_cons_of_mem a hc))

theorem collapseWs_allWs {l : List Char}
    (h : ∀ c ∈ l, isWs c = true) :
    collapseWs l = [] ∨ collapseWs l = [' '] := by
  unfold collapseWs
  cases l with
  | nil => left; rfl
  | cons a t =>
    right
    rw [collapseAux]
    simp [h a (by simp)]
    exact collapseAux_true_allWs (fun c hc => h c (List.mem_cons_of_mem a hc))

theorem collapseAux_eq_self {l : List Char} {b : Bool}
    (h1 : ∀ c ∈ l, isWs c = true → c = ' ')
    (h2 : noAdjWs l = true)
    (h3 : b = true → ∀ c, l.head? = some c → isWs c = false) :
    collapseAux b l = l := by
  induction l generalizing b with
  | nil => rfl
  | cons a t ih =>
    have h1t : ∀ c ∈ t, isWs c = true → c = ' ' :=
      fun c hc => h1 c (List.mem_cons_of_mem a hc)
    have h2t : noAdjWs t = true := by
      cases t with
      | nil => rfl
      | cons x xs =>
        unfold noAdjWs at h2
        exact Bool.and_elim_right h2
    by_cases ha : isWs a
    · cases b with
      | true => exact absurd (h3 rfl a rfl) (by simp [ha])
      | false =>
        have haSp : a = ' ' := h1 a (by simp) ha
        have hrec : collapseAux true t = t := by
          apply ih h1t h2t
          intro _ c hc
          cases t with
          | nil => simp at hc
          | cons x xs =>
            simp at hc
            subst hc
            unfold noAdjWs at h2
            have hx := Bool.and_elim_left h2
            simp [ha] at hx
            exact hx
        rw [collapseAux]
        simp [ha]
        rw [hrec, haSp]
        exact ⟨rfl, rfl⟩
    · rw [collapseAux]
      simp [ha]
      apply ih h1t h2t
      intro hfalse
      simp at hfalse

theorem normNl_eq_self {l : List Char}
    (hr : '\r' ∉ l) (hn : '\n' ∉ l) : normNl l = l := by
  induction l with
  | nil => rfl
  | cons a t ih =>
    have har : a ≠ '\r' := fun h => hr (by simp [h])
    have han : a ≠ '\n' := fun h => hn (by simp [h])
    have htr : '\r' ∉ t := fun h => hr (List.mem_cons_of_mem a h)
    have htn : '\n' ∉ t := fun h => hn (List.mem_cons_of_mem a h)
    cases t with
    | nil => simp [normNl, har, han]
    | cons x xs =>
      rw [normNl]
      simp [har, han]
      exact ih htr htn

theorem splitNl_no_nl {l : List Char} (h : '\n' ∉ l) : splitNl l = [l] := by
  induction l with
  | nil => rfl
  | cons a t ih =>
    have han : a ≠ '\n' := fun hh => h (by simp [hh])
    have htn : '\n' ∉ t := fun hh => h (List.mem_cons_of_mem a hh)
    rw [splitNl]
    simp [han]
    rw [ih htn]

theorem isHttpAfter_some_mem {l r : List Char} (h : isHttpAfter l = some r) :
    ∀ c ∈ r, c ∈ l := by
  intro c hc
  rw [isHttpAfter.eq_def] at h
  split at h
  · simp at h; subst h; simp [hc]
  · simp at h; subst h; simp [hc]
  · simp at h

theorem matchUrl_some_mem {l r : List Char} (h : matchUrl l = some r) :
    ∀ c ∈ r, c ∈ l := by
  intro c hc
  rw [matchUrl.eq_def] at h
  split at h
  · rename_i rest
    rcases hafter : isHttpAfter rest with _ | rest2
    · rw [hafter] at h; simp at h
    · rw [hafter] at h
      by_cases he : (rest2.takeWhile (fun c => !isWs c)).isEmpty
      · simp [he] at h
      · simp [he] at h
        subst h
        have h1 : c ∈ rest2 := mem_dropWhile hc
        have h2 : c ∈ rest := isHttpAfter_some_mem hafter c h1
        simp [h2]
  · simp at h

theorem mem_stripUrlsF {f : Nat} {l : List Char} {c : Char}
    (h : c ∈ stripUrlsF f l) : c ∈ l := by
  induction f generalizing l with
  | zero => simpa [stripUrlsF] using h
  | succ g ih =>
    cases l with
    | nil => simp [stripUrlsF] at h
    | cons a t =>
      rw [stripUrlsF] at h
      rcases hm : matchUrl (a :: t) with _ | rest
      · rw [hm] at h
        rcases List.mem_cons.mp h with h1 | h2
        · simp [h1]
        · exact List.mem_cons_of_mem a (ih h2)
      · rw [hm] at h
        exact matchUrl_some_mem hm c (ih h)

theorem mem_stripUrls {l : List Char} {c : Char} (h : c ∈ stripUrls l) :
    c ∈ l := mem_stripUrlsF h

theorem mem_collapseNlAux {b : Bool} {l : List Char} {c : Char}
    (h : c ∈ collapseNlAux b l) : c ∈ l := by
  induction l generalizing b with
  | nil => simp [collapseNlAux] at h
  | cons a t ih =>
    by_cases ha : a = '\n'
    · cases b
      · simp [collapseNlAux, ha] at h
        rcases h with h1 | h2
        · simp [h1, ha]
        · exact List.mem_cons_of_mem a (ih h2)
      · simp [collapseNlAux, ha] at h
        exact List.mem_cons_of_mem a (ih h)
    · simp [collapseNlAux, ha] at h
      rcases h with h1 | h2
      · simp [h1]
      · exact List.mem_cons_of_mem a (ih h2)

theorem collapseNlAux_eq_self {l : List Char} {b : Bool}
    (h : '\n' ∉ l) : collapseNlAux b l = l := by
  induction l generalizing b with
  | nil => rfl
  | cons a t ih =>
    have han : a ≠ '\n' := fun hh => h (by simp [hh])
    have htn : '\n' ∉ t := fun hh => h (List.mem_cons_of_mem a hh)
    rw [collapseNlAux]
    simp [han]
    exact ih htn

/-!  Structural invariants of the `cleanDescription` pipeline. -/

theorem trimmedProps (l : List Char) :
    (∀ c ∈ trim (collapseWs (step1 l)), isWs c = true → c = ' ') ∧
    (∀ c ∈ trim (collapseWs (step1 l)), isZw c = false) := by
  constructor
  · intro c hc hw
    exact collapseAux_ws_eq_space (mem_trim hc) hw
  · intro c hc
    rcases mem_collapseAux (mem_trim hc) with h1 | h1
    · exact step1_no_zw h1
    · subst h1; decide

theorem lineStage_of_good {m : List Char}
    (hws : ∀ c ∈ m, isWs c = true → c = ' ') :
    lineStage m = [] ∨ lineStage m = cleanLine m := by
  have hnr : '\r' ∉ m := fun h => absurd (hws _ h (by decide)) (by decide)
  have hnn : '\n' ∉ m := fun h => absurd (hws _ h (by decide)) (by decide)
  unfold lineStage
  rw [normNl_eq_self hnr hnn, splitNl_no_nl hnn]
  simp only [List.map_cons, List.map_nil]
  by_cases hp : 0 < (cleanLine m).length
  · right
    rw [List.filter_cons]
    simp [hp, List.intercalate]
  · left
    rw [List.filter_cons]
    simp [hp, List.intercalate]

theorem cleanDescription_good {s r : List Char}
    (h : cleanDescription (some s) = some r) :
    r ≠ [] ∧ (∀ c ∈ r, isWs c = true → c = ' ') ∧ (∀ c ∈ r, isZw c = false) ∧
    (∀ c, r.head? = some c → isWs c = false) ∧
    (∀ c, r.getLast? = some c → isWs c = false) := by
  unfold cleanDescription at h
  by_cases hl : 0 < (cleanCore s).length
  · simp only [hl, if_true] at h
    rcases h with h
    injection h with h
    subst h
    have hmem : ∀ c ∈ cleanCore s, c ∈ trim (collapseWs (step1 s)) := by
      intro c hc
      unfold cleanCore at hc
      have h1 : c ∈ lineStage (trim (collapseWs (step1 s))) :=
        mem_collapseNlAux (mem_trim hc)
      rcases lineStage_of_good (trimmedProps s).1 with h2 | h2
      · rw [h2] at h1; simp at h1
      · rw [h2] at h1
        exact mem_stripUrls (mem_trim h1)
    refine ⟨fun hnil => by rw [hnil] at hl; simp at hl, ?_, ?_, ?_, ?_⟩
    · intro c hc hw
      exact (trimmedProps s).1 c (hmem c hc) hw
    · intro c hc
      exact (trimmedProps s).2 c (hmem c hc)
    · intro c hc
      exact trim_head_not_ws hc
    · intro c hc
      exact trim_last_not_ws hc
  · simp [hl] at h

theorem cleanCore_fixed {r : List Char}
    (hne : r ≠ [])
    (hws : ∀ c ∈ r, isWs c = true → c = ' ')
    (hzw : ∀ c ∈ r, isZw c = false)
    (hh : ∀ c, r.head? = some c → isWs c = false)
    (hl : ∀ c, r.getLast? = some c → isWs c = false)
    (hadj : noAdjWs r = true)
    (hstrip : stripUrls r = r) :
    cleanCore r = r := by
  have hnr : '\r' ∉ r := fun h => absurd (hws _ h (by decide)) (by decide)
  have hnn : '\n' ∉ r := fun h => absurd (hws _ h (by decide)) (by decide)
  have e1 : step1 r = r := step1_eq_self hzw
  have e2 : collapseWs r = r :=
    collapseAux_eq_self hws hadj (fun h => by simp at h)
  have e3 : trim r = r := trim_eq_self hh hl
  have e4 : cleanLine r = r := by
    unfold cleanLine
    rw [hstrip, e3]
  have e5 : collapseNl r = r := collapseNlAux_eq_self hnn
  unfold cleanCore
  rw [e1]
  show trim (collapseNl (lineStage (trim (collapseWs r)))) = r
  rw [show collapseWs r = r from e2, e3]
  unfold lineStage
  rw [normNl_eq_self hnr hnn, splitNl_no_nl hnn]
  simp only [List.map_cons, List.map_nil]
  rw [e4, List.filter_cons]
  have hpos : 0 < r.length := List.length_pos.mpr hne
  simp [hpos, List.intercalate, e5, e3]

/-!  Claim theorems about the Text Normalizer. -/

/-- C1: the claim says line structure survives normalization, with
`normalize("Hello\nhttps://only-a-link.example\nWorld") = "Hello\nWorld"`
and `normalize("Check   this\nhttp://a.b/c\n\n  out") = "Check this\nout"`.
The code instead collapses all whitespace (newlines included) into single
spaces before its line-splitting steps run, so the line-based URL filter
its comments describe never sees more than one line: the two inputs
evaluate to the single-line strings `"Hello  World"` and
`"Check this  out"` (with a doubled space where each URL was removed). -/
theorem c1_code_eval :
    cleanDescription (some ("Hello\nhttps://only-a-link.example\nWorld".toList)) =
      some ("Hello  World".toList) ∧
    cleanDescription (some ("Check   this\nhttp://a.b/c\n\n  out".toList)) =
      some ("Check this  out".toList) :=
  ⟨by decide, by decide⟩

/-- C2 counterexample: the claim says the cleaned form of
`"abc https://example.com/x?y=1 def"` is `"abc def"`; the code actually
produces `"abc  def"` — the URL is deleted in place and the spaces on
each side of it are both kept, and nothing later collapses the doubled
space. -/
theorem c2_counterexample :
    cleanDescription (some ("abc https://example.com/x?y=1 def".toList)) =
      some ("abc  def".toList) ∧
    ("abc  def".toList : List Char) ≠ "abc def".toList :=
  ⟨by decide, by decide⟩

/-- C2 amended: for the input line `"abc https://example.com/x?y=1 def"`
the Text Normalizer removes the URL substring, and the cleaned line is
`"abc  def"` — a doubled space remains at the removal site. -/
theorem c2_amended :
    cleanDescription (some ("abc https://example.com/x?y=1 def".toList)) =
      some ("abc  def".toList) := by decide

/-- C5: the Text Normalizer totally maps every input to a defined value
and never returns the empty string: `null` maps to `null`, any string of
whitespace and zero-width characters maps to `null`, and every non-`null`
result is non-empty. -/
theorem c5_totality :
    cleanDescription none = none ∧
    (∀ s : List Char, (∀ c ∈ s, isWs c = true ∨ isZw c = true) →
      cleanDescription (some s) = none) ∧
    (∀ s r : List Char, cleanDescription (some s) = some r → r ≠ []) := by
  refine ⟨rfl, ?_, ?_⟩
  · intro s hs
    have hall : ∀ c ∈ step1 s, isWs c = true := step1_allWs hs
    have hcc : cleanCore s = [] := by
      unfold cleanCore
      rcases collapseWs_allWs hall with h | h
      · rw [h]; rfl
      · rw [h]; rfl
    unfold cleanDescription
    simp [hcc]
  · intro s r h
    unfold cleanDescription at h
    by_cases hl : 0 < (cleanCore s).length
    · simp only [hl, if_true] at h
      injection h with h
      intro hnil
      rw [hnil] at h
      rw [h] at hl
      simp at hl
    · simp [hl] at h

/-- Witness for C5: concrete instances of the two quantified parts. -/
theorem c5_totality_witness :
    cleanDescription (some (" \t ".toList)) = none ∧
    ("ab".toList : List Char) ≠ [] :=
  ⟨c5_totality.2.1 _ (by decide),
   c5_totality.2.2 ("ab".toList) ("ab".toList) (by decide)⟩

/-- C6 counterexample: idempotence fails on the code.  For
`s = "abc https://example.com def"` the first normalization yields
`"abc  def"` (doubled space at the URL removal site), and normalizing
again collapses the doubled space to `"abc def"`, a different string. -/
theorem c6_counterexample :
    cleanDescription (some ("abc https://example.com def".toList)) =
      some ("abc  def".toList) ∧
    cleanDescription
        (cleanDescription (some ("abc https://example.com def".toList))) =
      some ("abc def".toList) ∧
    cleanDescription
        (cleanDescription (some ("abc https://example.com def".toList))) ≠
      cleanDescription (some ("abc https://example.com def".toList)) :=
  ⟨by decide, by decide, by decide⟩

/-- C6 amended: the Text Normalizer is idempotent on every non-`null`
output on which the URL-removal step deletes nothing and which contains
no two adjacent whitespace characters (the counterexample shows both
escape hatches are necessary: removing a URL leaves a doubled space that
a second pass collapses). -/
theorem c6_amended :
    ∀ s r : List Char, cleanDescription (some s) = some r →
      noAdjWs r = true → stripUrls r = r →
      cleanDescription (some r) = some r := by
  intro s r h hadj hstrip
  obtain ⟨hne, hws, hzw, hh, hl⟩ := cleanDescription_good h
  have hc : cleanCore r = r := cleanCore_fixed hne hws hzw hh hl hadj hstrip
  unfold cleanDescription
  simp [hc, List.length_pos.mpr hne]

/-- Witness for C6 amended: the output `"ab"` of normalizing `"ab"` is a
fixed point. -/
theorem c6_amended_witness :
    cleanDescription (some ("ab".toList)) = some ("ab".toList) :=
  c6_amended ("ab".toList) ("ab".toList) (by decide) (by decide) (by decide)

/-- C10: every non-`null` output of the Text Normalizer contains no
newline character — the early whitespace collapse replaces every newline
with a space before the line-splitting steps run, so the rejoined result
is a single line. -/
theorem c10_single_line :
    ∀ s r : List Char, cleanDescription (some s) = some r → '\n' ∉ r := by
  intro s r h hmem
  obtain ⟨_, hws, _, _, _⟩ := cleanDescription_good h
  exact absurd (hws _ hmem (by decide)) (by decide)

/-- Witness for C10: the normalization of `"a\nb"` is `"a b"`, which has
no newline. -/
theorem c10_single_line_witness : '\n' ∉ ("a b".toList : List Char) :=
  c10_single_line ("a\nb".toList) ("a b".toList) (by decide)

/-!  Claim theorems about the Recursive Text Flattener and Title Reader. -/

theorem extractChildren_eq_join (cs : List Node) :
    extractChildren cs = (cs.map nodeContrib).flatten := by
  induction cs with
  | nil => rfl
  | cons n ns ih =>
    rw [extractChildren, List.map_cons, List.flatten, ih]

/-- C8: the flattener produces the document-order concatenation of the
child contributions, where a text node contributes its literal content,
an anchor contributes its resolved target URL, exactly one space, and
then the flattening of its own children, and any other element
contributes only the flattening of its children; in particular a
container whose only child is an anchor with target `https://x.test` and
label `"click"` flattens to `"https://x.test click"`. -/
theorem c8_flattener :
    (∀ cs : List Node, extractText (Node.element cs) = (cs.map nodeContrib).flatten) ∧
    (∀ t : List Char, nodeContrib (Node.text t) = t) ∧
    (∀ href : List Char, ∀ cs : List Node,
      nodeContrib (Node.anchor href cs) =
        href ++ [' '] ++ extractText (Node.anchor href cs)) ∧
    (∀ cs : List Node, nodeContrib (Node.element cs) = extractText (Node.element cs)) ∧
    extractText (Node.element
        [Node.anchor ("https://x.test".toList) [Node.text ("click".toList)]]) =
      "https://x.test click".toList := by
  refine ⟨?_, ?_, ?_, ?_, ?_⟩
  · intro cs
    rw [extractText]
    exact extractChildren_eq_join cs
  · intro t; rfl
  · intro href cs
    rw [nodeContrib, extractText, List.append_assoc]
  · intro cs; rfl
  · rfl

/-- C9 counterexample: the claim that the returned title is never the
empty string is false — a present heading whose text content is a single
space yields the trimmed text `""`. -/
theorem c9_counterexample :
    getYouTubeTitle (some (" ".toList)) = ([] : List Char) := by decide

/-- C9 amended: the Title Reader is a single lookup with no error path —
a present heading returns its trimmed text content (which is empty
exactly when that trimmed text is empty), an absent heading returns the
fixed sentinel; the result is non-empty whenever the heading is absent or
its trimmed text is non-empty. -/
theorem c9_amended :
    (∀ tc : List Char, getYouTubeTitle (some tc) = trim tc) ∧
    getYouTubeTitle none = noTitle ∧
    getYouTubeTitle none ≠ [] ∧
    (∀ tc : List Char, trim tc ≠ [] → getYouTubeTitle (some tc) ≠ []) := by
  refine ⟨fun tc => rfl, rfl, by decide, ?_⟩
  intro tc h
  simpa [getYouTubeTitle] using h

/-- Witness for C9 amended: the heading text `" hi "` trims to the
non-empty `"hi"`. -/
theorem c9_amended_witness : getYouTubeTitle (some (" hi ".toList)) ≠ [] :=
  c9_amended.2.2.2 (" hi ".toList) (by decide)

/-!  Trace lemmas for the extraction state machines. -/

theorem polls_clickPart (b : Bool) (r : Nat) (tr : List Ev) :
    polls ((if b then [Ev.click r] else []) ++ tr) = polls tr := by
  cases b <;> simp [polls, pollOf]

theorem polls_poll (r : Nat) (tr : List Ev) :
    polls (Ev.poll r :: tr) = r :: polls tr := by
  simp [polls, pollOf]

theorem clicks_clickPart (b : Bool) (r : Nat) (tr : List Ev) :
    clicks ((if b then [Ev.click r] else []) ++ Ev.poll r :: tr) =
      (if b then [r] else []) ++ clicks tr := by
  cases b <;> simp [clicks, clickOf]

theorem resOf_pre {b : Bool} {r : Nat} {pre : List Ev}
    (h : ∀ e ∈ pre, resOf e = none) :
    ∀ e ∈ (if b then [Ev.click r] else []) ++ Ev.poll r :: pre,
      resOf e = none := by
  intro e he
  rcases List.mem_append.mp he with h1 | h1
  · cases b
    · simp at h1
    · simp at h1; subst h1; rfl
  · rcases List.mem_cons.mp h1 with h2 | h2
    · subst h2; rfl
    · exact h e h2

/-- Full characterization of one call of the three-attempt routine: the
polls are the consecutive rounds `a+1, …, k` for some `k ≤ 3`, the trace
ends with exactly one resolution, and when the container is always absent
the call uses all three rounds and resolves `null`. -/
theorem runV3F_spec (f : Nat) :
    ∀ (a : Nat) (env : Nat → Round3), a + f = 4 → a ≤ 2 →
    ∃ (k : Nat) (v : Option (List Char)) (pre : List Ev),
      a < k ∧ k ≤ 3 ∧
      polls (runV3F f env a) = List.range' (a + 1) (k - a) ∧
      runV3F f env a = pre ++ [Ev.res v] ∧
      (∀ e ∈ pre, resOf e = none) ∧
      ((∀ n, (env n).container = none) → v = none ∧ k = 3) := by
  induction f with
  | zero =>
    intro a env hf ha
    omega
  | succ g ih =>
    intro a env hf ha
    rcases hc : (env (a + 1)).container with _ | txt
    · by_cases hr : a + 1 < 3
      · obtain ⟨k, v, pre, hk1, hk2, hp, he, hpre, hcond⟩ :=
          ih (a + 1) env (by omega) (by omega)
        refine ⟨k, v,
          (if (env (a + 1)).showMore then [Ev.click (a + 1)] else []) ++
            Ev.poll (a + 1) :: pre, by omega, hk2, ?_, ?_, resOf_pre hpre,
          fun hall => hcond hall⟩
        · rw [runV3F]
          simp only [hc]
          rw [if_pos hr, polls_clickPart, polls_poll, hp]
          have hka : k - a = (k - (a + 1)) + 1 := by omega
          rw [hka, List.range'_succ]
        · rw [runV3F]
          simp only [hc]
          rw [if_pos hr, he]
          simp
      · refine ⟨3, none,
          (if (env (a + 1)).showMore then [Ev.click (a + 1)] else []) ++
            Ev.poll (a + 1) :: [], by omega, le_refl 3, ?_, ?_,
          resOf_pre (by intro e he2; simp at he2), fun _ => ⟨rfl, rfl⟩⟩
        · rw [runV3F]
          simp only [hc]
          rw [if_neg hr, polls_clickPart, polls_poll]
          have ha2 : a = 2 := by omega
          subst ha2
          simp [polls, pollOf, List.range']
        · rw [runV3F]
          simp only [hc]
          rw [if_neg hr]
          simp
    · by_cases ht : 0 < (trim txt).length
      · refine ⟨a + 1, some (trim txt),
          (if (env (a + 1)).showMore then [Ev.click (a + 1)] else []) ++
            Ev.poll (a + 1) :: [], by omega, by omega, ?_, ?_,
          resOf_pre (by intro e he2; simp at he2), ?_⟩
        · rw [runV3F]
          simp only [hc]
          rw [if_pos ht, polls_clickPart, polls_poll]
          have hka : a + 1 - a = 1 := by omega
          rw [hka]
          simp [polls, pollOf, List.range']
        · rw [runV3F]
          simp only [hc]
          rw [if_pos ht]
          simp
        · intro hall
          have := hall (a + 1)
          rw [hc] at this
          simp at this
      · refine ⟨a + 1, none,
          (if (env (a + 1)).showMore then [Ev.click (a + 1)] else []) ++
            Ev.poll (a + 1) :: [], by omega, by omega, ?_, ?_,
          resOf_pre (by intro e he2; simp at he2), ?_⟩
        · rw [runV3F]
          simp only [hc]
          rw [if_neg ht, polls_clickPart, polls_poll]
          have hka : a + 1 - a = 1 := by omega
          rw [hka]
          simp [polls, pollOf, List.range']
        · rw [runV3F]
          simp only [hc]
          rw [if_neg ht]
          simp
        · intro hall
          have := hall (a + 1)
          rw [hc] at this
          simp at this

/-- Full characterization of one call of the five-attempt routine: the
polls are the consecutive rounds `a+1, …, k` for some `k ≤ 5`, the trace
ends with exactly one resolution, and when the container is always absent
— or always present with empty flattened text — the call uses all five
rounds and resolves the sentinel. -/
theorem runV5F_spec (f : Nat) :
    ∀ (a : Nat) (env : Nat → Round5), a + f = 6 → a ≤ 4 →
    ∃ (k : Nat) (v : Option (List Char)) (pre : List Ev),
      a < k ∧ k ≤ 5 ∧
      polls (runV5F f env a) = List.range' (a + 1) (k - a) ∧
      runV5F f env a = pre ++ [Ev.res v] ∧
      (∀ e ∈ pre, resOf e = none) ∧
      ((∀ n, (env n).container = none) → v = some sentinel ∧ k = 5) ∧
      ((∀ n, ∃ node, (env n).container = some node ∧
          trim (extractText node) = []) → v = some sentinel ∧ k = 5) := by
  induction f with
  | zero =>
    intro a env hf ha
    omega
  | succ g ih =>
    intro a env hf ha
    rcases hc : (env (a + 1)).container with _ | node
    · by_cases hr : a + 1 < 5
      · obtain ⟨k, v, pre, hk1, hk2, hp, he, hpre, hcond1, hcond2⟩ :=
          ih (a + 1) env (by omega) (by omega)
        refine ⟨k, v,
          (if (env (a + 1)).showMore then [Ev.click (a + 1)] else []) ++
            Ev.poll (a + 1) :: pre, by omega, hk2, ?_, ?_, resOf_pre hpre,
          fun hall => hcond1 hall, ?_⟩
        · rw [runV5F]
          simp only [hc]
          rw [if_pos hr, polls_clickPart, polls_poll, hp]
          have hka : k - a = (k - (a + 1)) + 1 := by omega
          rw [hka, List.range'_succ]
        · rw [runV5F]
          simp only [hc]
          rw [if_pos hr, he]
          simp
        · intro hall
          obtain ⟨n2, hn2, _⟩ := hall (a + 1)
          rw [hc] at hn2
          simp at hn2
      · refine ⟨5, some sentinel,
          (if (env (a + 1)).showMore then [Ev.click (a + 1)] else []) ++
            Ev.poll (a + 1) :: [], by omega, le_refl 5, ?_, ?_,
          resOf_pre (by intro e he2; simp at he2),
          fun _ => ⟨rfl, rfl⟩, fun _ => ⟨rfl, rfl⟩⟩
        · rw [runV5F]
          simp only [hc]
          rw [if_neg hr, polls_clickPart, polls_poll]
          have ha4 : a = 4 := by omega
          subst ha4
          simp [polls, pollOf, List.range']
        · rw [runV5F]
          simp only [hc]
          rw [if_neg hr]
          simp
    · by_cases ht : 0 < (trim (extractText node)).length
      · refine ⟨a + 1, some (trim (extractText node)),
          (if (env (a + 1)).showMore then [Ev.click (a + 1)] else []) ++
            Ev.poll (a + 1) :: [], by omega, by omega, ?_, ?_,
          resOf_pre (by intro e he2; simp at he2), ?_, ?_⟩
        · rw [runV5F]
          simp only [hc]
          rw [if_pos ht, polls_clickPart, polls_poll]
          have hka : a + 1 - a = 1 := by omega
          rw [hka]
          simp [polls, pollOf, List.range']
        · rw [runV5F]
          simp only [hc]
          rw [if_pos ht]
          simp
        · intro hall
          have := hall (a + 1)
          rw [hc] at this
          simp at this
        · intro hall
          obtain ⟨n2, hn2, hemp⟩ := hall (a + 1)
          rw [hc] at hn2
          injection hn2 with hn2
          subst hn2
          rw [hemp] at ht
          simp at ht
      · by_cases hr : a + 1 < 5
        · obtain ⟨k, v, pre, hk1, hk2, hp, he, hpre, hcond1, hcond2⟩ :=
            ih (a + 1) env (by omega) (by omega)
          refine ⟨k, v,
            (if (env (a + 1)).showMore then [Ev.click (a + 1)] else []) ++
              Ev.poll (a + 1) :: pre, by omega, hk2, ?_, ?_, resOf_pre hpre,
            ?_, fun hall => hcond2 hall⟩
          · rw [runV5F]
            simp only [hc]
            rw [if_neg ht, if_pos hr, polls_clickPart, polls_poll, hp]
            have hka : k - a = (k - (a + 1)) + 1 := by omega
            rw [hka, List.range'_succ]
          · rw [runV5F]
            simp only [hc]
            rw [if_neg ht, if_pos hr, he]
            simp
          · intro hall
            have := hall (a + 1)
            rw [hc] at this
            simp at this
        · refine ⟨5, some sentinel,
            (if (env (a + 1)).showMore then [Ev.click (a + 1)] else []) ++
              Ev.poll (a + 1) :: [], by omega, le_refl 5, ?_, ?_,
            resOf_pre (by intro e he2; simp at he2),
            fun _ => ⟨rfl, rfl⟩, fun _ => ⟨rfl, rfl⟩⟩
          · rw [runV5F]
            simp only [hc]
            rw [if_neg ht, if_neg hr, polls_clickPart, polls_poll]
            have ha4 : a = 4 := by omega
            subst ha4
            simp [polls, pollOf, List.range']
          · rw [runV5F]
            simp only [hc]
            rw [if_neg ht, if_neg hr]
            simp

/-- Click bound for the three-attempt routine: at most one click per
round, hence at most `3 - a` clicks from attempt count `a`. -/
theorem clicksV3_le (f : Nat) :
    ∀ (a : Nat) (env : Nat → Round3), a ≤ 2 →
    (clicks (runV3F f env a)).length ≤ 3 - a := by
  induction f with
  | zero =>
    intro a env ha
    simp [runV3F, clicks]
  | succ g ih =>
    intro a env ha
    rw [runV3F]
    rcases hc : (env (a + 1)).container with _ | txt
    · by_cases hr : a + 1 < 3
      · simp only [hc]
        rw [if_pos hr, clicks_clickPart]
        have hb := ih (a + 1) env (by omega)
        cases (env (a + 1)).showMore <;> simp <;> omega
      · simp only [hc]
        rw [if_neg hr, clicks_clickPart]
        cases (env (a + 1)).showMore <;> simp [clicks, clickOf] <;> omega
    · simp only [hc]
      by_cases ht : 0 < (trim txt).length
      · rw [if_pos ht, clicks_clickPart]
        cases (env (a + 1)).showMore <;> simp [clicks, clickOf] <;> omega
      · rw [if_neg ht, clicks_clickPart]
        cases (env (a + 1)).showMore <;> simp [clicks, clickOf] <;> omega

/-- Click bound for the five-attempt routine: at most one click per
round, hence at most `5 - a` clicks from attempt count `a`. -/
theorem clicksV5_le (f : Nat) :
    ∀ (a : Nat) (env : Nat → Round5), a ≤ 4 →
    (clicks (runV5F f env a)).length ≤ 5 - a := by
  induction f with
  | zero =>
    intro a env ha
    simp [runV5F, clicks]
  | succ g ih =>
    intro a env ha
    rw [runV5F]
    rcases hc : (env (a + 1)).container with _ | node
    · by_cases hr : a + 1 < 5
      · simp only [hc]
        rw [if_pos hr, clicks_clickPart]
        have hb := ih (a + 1) env (by omega)
        cases (env (a + 1)).showMore <;> simp <;> omega
      · simp only [hc]
        rw [if_neg hr, clicks_clickPart]
        cases (env (a + 1)).showMore <;> simp [clicks, clickOf] <;> omega
    · simp only [hc]
      by_cases ht : 0 < (trim (extractText node)).length
      · rw [if_pos ht, clicks_clickPart]
        cases (env (a + 1)).showMore <;> simp [clicks, clickOf] <;> omega
      · by_cases hr : a + 1 < 5
        · rw [if_neg ht, if_pos hr, clicks_clickPart]
          have hb := ih (a + 1) env (by omega)
          cases (env (a + 1)).showMore <;> simp <;> omega
        · rw [if_neg ht, if_neg hr, clicks_clickPart]
          cases (env (a + 1)).showMore <;> simp [clicks, clickOf] <;> omega

/-!  Claim theorems about the extraction state machines. -/

/-- C3 counterexample: in the three-attempt routine
(`src/unnamed/part_000`) a present container with empty trimmed text
resolves `null` immediately on round 1 even though attempts remain
(1 < 3): the trace has a single poll and no retry, refuting the claim
that an empty text with attempts remaining always schedules another
poll. -/
theorem c3_counterexample :
    runV3 (fun _ => ⟨false, some (" ".toList)⟩) = [Ev.poll 1, Ev.res none] := by
  decide

/-- C3 amended: the claimed behaviour holds of the five-attempt routine
(`src/unnamed/part_001`): if every round finds the container present with
empty flattened text, the machine polls all five rounds — it retries
rather than resolving while attempts remain — and resolves the
no-content sentinel only once the attempt budget is exhausted.  (The
three-attempt routine instead resolves `null` immediately on empty
text.) -/
theorem c3_amended :
    ∀ env : Nat → Round5,
      (∀ n, ∃ node, (env n).container = some node ∧
        trim (extractText node) = []) →
      polls (runV5 env) = [1, 2, 3, 4, 5] ∧
      ∃ pre : List Ev, runV5 env = pre ++ [Ev.res (some sentinel)] ∧
        (∀ e ∈ pre, resOf e = none) := by
  intro env hall
  obtain ⟨k, v, pre, _, _, hp, he, hpre, _, hcond2⟩ :=
    runV5F_spec 6 0 env rfl (by omega)
  obtain ⟨hv, hk⟩ := hcond2 hall
  subst hv
  subst hk
  constructor
  · show polls (runV5F 6 env 0) = [1, 2, 3, 4, 5]
    rw [hp]
    rfl
  · exact ⟨pre, he, hpre⟩

/-- Witness for C3 amended: the environment whose container is always an
empty text node. -/
theorem c3_amended_witness :
    polls (runV5 (fun _ => ⟨false, some (Node.text [])⟩)) = [1, 2, 3, 4, 5] ∧
    ∃ pre : List Ev, runV5 (fun _ => ⟨false, some (Node.text [])⟩) =
        pre ++ [Ev.res (some sentinel)] ∧
      (∀ e ∈ pre, resOf e = none) :=
  c3_amended (fun _ => ⟨false, some (Node.text [])⟩)
    (fun _ => ⟨Node.text [], rfl, rfl⟩)

/-- C4 counterexample: with the show-more control present on every round
and the container never appearing, the five-attempt routine clicks the
control on every one of its five poll rounds — not at most once on the
initial invocation, as the claim states: the retry path re-enters
`tryGetDescription`, which re-checks and re-clicks the control. -/
theorem c4_counterexample :
    clicks (runV5 (fun _ => ⟨true, none⟩)) = [1, 2, 3, 4, 5] ∧
    1 < (clicks (runV5 (fun _ => ⟨true, none⟩))).length :=
  ⟨by decide, by decide⟩

/-- C4 amended: within one extraction call the expansion control is
activated at most once per poll round — every retry re-enters
`tryGetDescription`, which re-checks and, when present, re-clicks it —
so the number of activations is bounded by the attempt budget (3 in the
three-attempt routine, 5 in the five-attempt routine), not by one. -/
theorem c4_amended :
    ∀ (env3 : Nat → Round3) (env5 : Nat → Round5),
      (clicks (runV3 env3)).length ≤ 3 ∧
      (clicks (runV5 env5)).length ≤ 5 := by
  intro env3 env5
  constructor
  · have := clicksV3_le 4 0 env3 (by omega)
    simpa using this
  · have := clicksV5_le 6 0 env5 (by omega)
    simpa using this

/-- C7: within a single extraction call of either routine the poll
rounds are exactly `1, …, k` for some `k` bounded by the attempt budget
(monotonically increasing attempt counter, never exceeding
`maxAttempts`), the trace ends with its unique resolution event (once
resolved, no further polls occur), and when the container never appears
the machine uses the whole budget and resolves its no-content terminal
value (`null` for the three-attempt routine, the sentinel string for the
five-attempt routine). -/
theorem c7_retry_invariants :
    ∀ (env3 : Nat → Round3) (env5 : Nat → Round5),
      (∃ (k : Nat) (v : Option (List Char)) (pre : List Ev), 1 ≤ k ∧ k ≤ 3 ∧
        polls (runV3 env3) = List.range' 1 k ∧
        runV3 env3 = pre ++ [Ev.res v] ∧
        (∀ e ∈ pre, resOf e = none) ∧
        ((∀ n, (env3 n).container = none) → v = none ∧ k = 3)) ∧
      (∃ (k : Nat) (v : Option (List Char)) (pre : List Ev), 1 ≤ k ∧ k ≤ 5 ∧
        polls (runV5 env5) = List.range' 1 k ∧
        runV5 env5 = pre ++ [Ev.res v] ∧
        (∀ e ∈ pre, resOf e = none) ∧
        ((∀ n, (env5 n).container = none) → v = some sentinel ∧ k = 5)) := by
  intro env3 env5
  constructor
  · obtain ⟨k, v, pre, hk1, hk2, hp, he, hpre, hcond⟩ :=
      runV3F_spec 4 0 env3 rfl (by omega)
    refine ⟨k, v, pre, by omega, hk2, ?_, he, hpre, hcond⟩
    show polls (runV3F 4 env3 0) = List.range' 1 k
    simpa using hp
  · obtain ⟨k, v, pre, hk1, hk2, hp, he, hpre, hcond1, _⟩ :=
      runV5F_spec 6 0 env5 rfl (by omega)
    refine ⟨k, v, pre, by omega, hk2, ?_, he, hpre, hcond1⟩
    show polls (runV5F 6 env5 0) = List.range' 1 k
    simpa using hp

/-- Witness for C7: both machines run on the environment whose container
never appears. -/
theorem c7_retry_invariants_witness :
    (∃ (k : Nat) (v : Option (List Char)) (pre : List Ev), 1 ≤ k ∧ k ≤ 3 ∧
      polls (runV3 (fun _ : Nat => (⟨false, none⟩ : Round3))) = List.range' 1 k ∧
      runV3 (fun _ : Nat => (⟨false, none⟩ : Round3)) = pre ++ [Ev.res v] ∧
      (∀ e ∈ pre, resOf e = none) ∧
      ((∀ n, ((fun _ : Nat => (⟨false, none⟩ : Round3)) n).container = none) →
        v = none ∧ k = 3)) ∧
    (∃ (k : Nat) (v : Option (List Char)) (pre : List Ev), 1 ≤ k ∧ k ≤ 5 ∧
      polls (runV5 (fun _ : Nat => (⟨false, none⟩ : Round5))) = List.range' 1 k ∧
      runV5 (fun _ : Nat => (⟨false, none⟩ : Round5)) = pre ++ [Ev.res v] ∧
      (∀ e ∈ pre, resOf e = none) ∧
      ((∀ n, ((fun _ : Nat => (⟨false, none⟩ : Round5)) n).container = none) →
        v = some sentinel ∧ k = 5)) :=
  c7_retry_invariants (fun _ : Nat => (⟨false, none⟩ : Round3))
    (fun _ : Nat => (⟨false, none⟩ : Round5))

end Grad
